import Mathlib

/-!
Shallow embedding of the mem-flip flashcard terminal application
(`src/main.rs`): the topic store, the navigation state machine and the
per-mode key handlers, together with proofs of the spec's claims about
them.

Modelling conventions:
- `HashMap<String, Vec<Flashcard>>` is modelled as an association list
  `TopicsMap`; `mapGet`/`mapInsert`/`mapPush` act on the first entry with
  a matching key, which coincides with the `HashMap` operations because
  the map never holds duplicate keys.
- A key handler returns `Option App`: `none` models a Rust panic
  (index out of bounds, remainder by zero, `usize` underflow); `some a`
  is the successor application state.
- `serde_json` is out of the repository; its (de)serialization of
  `Topics` is modelled at the JSON value level (see `Json` below),
  following the spec's description of the persisted file shape.
-/

/-- `struct Flashcard { question: String, answer: String }`. -/
structure Flashcard where
  question : String
  answer : String
deriving DecidableEq

/-- The contents of `Topics.topics_map`: topic name to ordered card list. -/
abbrev TopicsMap := List (String × List Flashcard)

/-- `HashMap::get`: the value stored at `k`, reading the first matching entry. -/
def mapGet : TopicsMap → String → Option (List Flashcard)
  | [], _ => none
  | (k', v) :: rest, k => if k' = k then some v else mapGet rest k

/-- `HashMap::insert`: replaces the entry at `k` if present, else appends it. -/
def mapInsert : TopicsMap → String → List Flashcard → TopicsMap
  | [], k, v => [(k, v)]
  | (k', v') :: rest, k, v =>
      if k' = k then (k, v) :: rest else (k', v') :: mapInsert rest k v

/-- `if let Some(cards) = map.get_mut(k) { cards.push(c) }`: appends `c` to the
entry at `k` when present, otherwise leaves the map unchanged. -/
def mapPush : TopicsMap → String → Flashcard → TopicsMap
  | [], _, _ => []
  | (k', v) :: rest, k, c =>
      if k' = k then (k', v ++ [c]) :: rest else (k', v) :: mapPush rest k c

/-- `App::get_sorted_topics`: the keys of the map, sorted alphabetically. -/
def get_sorted_topics (m : TopicsMap) : List String :=
  (m.map Prod.fst).insertionSort (· ≤ ·)

/-- Rust's `str::trim`: surrounding whitespace removed from both ends
(whitespace per `Char.isWhitespace`, which agrees with Rust on ASCII). -/
def rustTrim (s : String) : String :=
  ⟨((s.data.dropWhile Char.isWhitespace).reverse.dropWhile Char.isWhitespace).reverse⟩

/-- `enum AppState` of `main.rs`: the four screens. -/
inductive AppState where
  | topicSelection
  | flashcardReview (topic : String) (cardIndex : Nat) (showAnswer : Bool)
  | createTopic (input : String)
  | addCard (topic : String) (questionInput : String) (answerInput : String)
      (editingQuestion : Bool)
deriving DecidableEq

/-- Logical key codes of the crossterm events the handlers match on. -/
inductive KeyCode where
  | char (c : Char)
  | enter
  | esc
  | tab
  | backspace
  | down
  | up
  | left
  | right
  | otherKey
deriving DecidableEq

/-- The modifier bits the code inspects (`CONTROL`, `SUPER`). -/
structure KeyModifiers where
  control : Bool
  superMod : Bool
deriving DecidableEq

/-- A key-press event: code plus modifiers. -/
structure KeyEvent where
  code : KeyCode
  modifiers : KeyModifiers
deriving DecidableEq

/-- `struct App`: the topic store, the current screen, the list selection
(`ListState::selected`) and the exit flag. -/
structure App where
  topics : TopicsMap
  state : AppState
  listSelected : Option Nat
  exit : Bool
deriving DecidableEq

/-- `App::new`: selects the first list item iff the store is non-empty. -/
def App.new (topics : TopicsMap) : App :=
  { topics := topics
    state := .topicSelection
    listSelected := if topics.isEmpty then none else some 0
    exit := false }

/-- `App::select_next_topic`. -/
def select_next_topic (a : App) : App :=
  let topicsCount := a.topics.length
  if topicsCount = 0 then a
  else
    match a.listSelected with
    | some i => { a with listSelected := some ((i + 1) % topicsCount) }
    | none => { a with listSelected := some 0 }

/-- `App::select_previous_topic`. -/
def select_previous_topic (a : App) : App :=
  let topicsCount := a.topics.length
  if topicsCount = 0 then a
  else
    match a.listSelected with
    | some i =>
        { a with listSelected := some (if i = 0 then topicsCount - 1 else i - 1) }
    | none => { a with listSelected := some 0 }

/-- `App::update_list_selection`: selects index 0 when the store is non-empty. -/
def update_list_selection (topics : TopicsMap) (cur : Option Nat) : Option Nat :=
  if topics.length > 0 then some 0 else cur

/-- `App::handle_topic_selection_keys`.  Indexing `get_sorted_topics()[selected]`
out of bounds panics in Rust, modelled by `none`. -/
def handle_topic_selection_keys (a : App) (e : KeyEvent) : Option App :=
  match e.code with
  | .char 'q' => some { a with exit := true }
  | .char 'n' => some { a with state := .createTopic "" }
  | .char 'a' =>
      match a.listSelected with
      | some selected =>
          match (get_sorted_topics a.topics)[selected]? with
          | some topicName => some { a with state := .addCard topicName "" "" true }
          | none => none
      | none => some a
  | .enter =>
      match a.listSelected with
      | some selected =>
          match (get_sorted_topics a.topics)[selected]? with
          | some topicName =>
              match mapGet a.topics topicName with
              | some cards =>
                  if cards.isEmpty then some a
                  else some { a with state := .flashcardReview topicName 0 false }
              | none => some a
          | none => none
      | none => some a
  | .down => some (select_next_topic a)
  | .char 'j' => some (select_next_topic a)
  | .up => some (select_previous_topic a)
  | .char 'k' => some (select_previous_topic a)
  | _ => some a

/-- The next-card branch of `App::handle_flashcard_keys`:
`(card_index + 1) % cards.len()` — remainder by zero panics when the card
list is empty, modelled by `none`. -/
def nextCard (a : App) (topic : String) (cardIndex : Nat) : Option App :=
  match mapGet a.topics topic with
  | some cards =>
      if cards.length = 0 then none
      else
        let nextIndex := (cardIndex + 1) % cards.length
        some { a with state := .flashcardReview topic nextIndex false }
  | none => some a

/-- The previous-card branch of `App::handle_flashcard_keys`:
`cards.len() - 1` underflows `usize` when the card list is empty and the
index is 0, modelled by `none`. -/
def prevCard (a : App) (topic : String) (cardIndex : Nat) : Option App :=
  match mapGet a.topics topic with
  | some cards =>
      if cardIndex = 0 then
        if cards.length = 0 then none
        else some { a with state := .flashcardReview topic (cards.length - 1) false }
      else some { a with state := .flashcardReview topic (cardIndex - 1) false }
  | none => some a

/-- `App::handle_flashcard_keys`. -/
def handle_flashcard_keys (a : App) (e : KeyEvent) (topic : String)
    (cardIndex : Nat) (showAnswer : Bool) : Option App :=
  match e.code with
  | .char 'q' => some { a with state := .topicSelection }
  | .esc => some { a with state := .topicSelection }
  | .char ' ' =>
      some { a with state := .flashcardReview topic cardIndex (!showAnswer) }
  | .enter =>
      some { a with state := .flashcardReview topic cardIndex (!showAnswer) }
  | .char 'n' => nextCard a topic cardIndex
  | .right => nextCard a topic cardIndex
  | .char 'p' => prevCard a topic cardIndex
  | .left => prevCard a topic cardIndex
  | _ => some a

/-- `App::handle_create_topic_keys`. -/
def handle_create_topic_keys (a : App) (e : KeyEvent) (currentInput : String) :
    Option App :=
  match e.code with
  | .esc => some { a with state := .topicSelection }
  | .enter =>
      if (rustTrim currentInput).isEmpty then some a
      else
        let newTopics := mapInsert a.topics (rustTrim currentInput) []
        some { a with topics := newTopics
                      state := .topicSelection
                      listSelected := update_list_selection newTopics a.listSelected }
  | .char c => some { a with state := .createTopic (currentInput.push c) }
  | .backspace => some { a with state := .createTopic (currentInput.dropRight 1) }
  | _ => some a

/-- `App::handle_add_card_keys`.  The `Char('s')` arm is guarded by
`modifiers.intersects(CONTROL | SUPER)`; an unguarded `'s'` falls through to
the generic character arm. -/
def handle_add_card_keys (a : App) (e : KeyEvent) (topic : String)
    (question : String) (answer : String) (editingQuestion : Bool) : Option App :=
  match e.code with
  | .esc => some { a with state := .topicSelection }
  | .tab =>
      some { a with state := .addCard topic question answer (!editingQuestion) }
  | .enter =>
      if editingQuestion then
        some { a with state := .addCard topic (question.push '\n') answer editingQuestion }
      else
        some { a with state := .addCard topic question (answer.push '\n') editingQuestion }
  | .char c =>
      if c = 's' ∧ (e.modifiers.control = true ∨ e.modifiers.superMod = true) then
        if ¬(rustTrim question).isEmpty ∧ ¬(rustTrim answer).isEmpty then
          some { a with
            topics := mapPush a.topics topic ⟨rustTrim question, rustTrim answer⟩
            state := .topicSelection }
        else some a
      else
        if editingQuestion then
          some { a with state := .addCard topic (question.push c) answer editingQuestion }
        else
          some { a with state := .addCard topic question (answer.push c) editingQuestion }
  | .backspace =>
      if editingQuestion then
        some { a with state := .addCard topic (question.dropRight 1) answer editingQuestion }
      else
        some { a with state := .addCard topic question (answer.dropRight 1) editingQuestion }
  | _ => some a

/-- `App::handle_key_event`: dispatch on the tag of the current state. -/
def stepApp (a : App) (e : KeyEvent) : Option App :=
  match a.state with
  | .topicSelection => handle_topic_selection_keys a e
  | .flashcardReview topic cardIndex showAnswer =>
      handle_flashcard_keys a e topic cardIndex showAnswer
  | .createTopic currentInput => handle_create_topic_keys a e currentInput
  | .addCard topic questionInput answerInput editingQuestion =>
      handle_add_card_keys a e topic questionInput answerInput editingQuestion

/-- Iterating `stepApp` with a fixed key event; `none` once any step panics. -/
def stepN (e : KeyEvent) : Nat → App → Option App
  | 0, a => some a
  | n + 1, a =>
      match stepApp a e with
      | some a' => stepN e n a'
      | none => none

/-- The states reachable from `App.new t0` by routed key events. -/
inductive Reachable (t0 : TopicsMap) : App → Prop where
  | init : Reachable t0 (App.new t0)
  | step {a a' : App} {e : KeyEvent} :
      Reachable t0 a → stepApp a e = some a' → Reachable t0 a'

/-- The invariant of `FlashcardReview`: the topic is a key of the store,
its card sequence is non-empty, and the card index is in bounds. -/
def reviewInv (a : App) : Prop :=
  ∀ topic i sa, a.state = AppState.flashcardReview topic i sa →
    ∃ cards, mapGet a.topics topic = some cards ∧ cards ≠ [] ∧ i < cards.length

/-! ### Persistence model

`serde_json` is an external library; the spec (§6) fixes the persisted
shape: one top-level mapping field `topics_map` whose value maps each
topic name to an ordered list of `{question, answer}` records.  The
(de)serialization is modelled at the JSON value level. -/

/-- Modelled from the spec: a JSON value, the data model of the
pretty-printed structured text that `serde_json` reads and writes. -/
inductive Json where
  | null
  | bool (b : Bool)
  | num (n : Int)
  | str (s : String)
  | arr (elems : List Json)
  | obj (fields : List (String × Json))

/-- First field of a JSON object with the given name, as serde's struct
deserializer resolves field names. -/
def jlookup : List (String × Json) → String → Option Json
  | [], _ => none
  | (k', v) :: rest, k => if k' = k then some v else jlookup rest k

/-- Modelled from the spec: serialization of one `Flashcard` record. -/
def flashcardToJson (c : Flashcard) : Json :=
  .obj [("question", .str c.question), ("answer", .str c.answer)]

/-- Modelled from the spec: serialization of the whole `Topics` store,
one top-level `topics_map` field. -/
def topicsToJson (t : TopicsMap) : Json :=
  .obj [("topics_map",
    .obj (t.map fun p => (p.1, .arr (p.2.map flashcardToJson))))]

/-- Modelled from the spec: deserialization of one `{question, answer}`
record; any other shape is malformed. -/
def jsonToFlashcard : Json → Option Flashcard
  | .obj fields =>
      match jlookup fields "question", jlookup fields "answer" with
      | some (.str q), some (.str ans) => some ⟨q, ans⟩
      | _, _ => none
  | _ => none

/-- Deserialization of a list of card records, failing on the first
malformed element. -/
def jsonListToCards : List Json → Option (List Flashcard)
  | [] => some []
  | j :: rest =>
      match jsonToFlashcard j, jsonListToCards rest with
      | some c, some cs => some (c :: cs)
      | _, _ => none

/-- Modelled from the spec: a topic's card sequence must be a JSON array
of card records. -/
def jsonToCards : Json → Option (List Flashcard)
  | .arr elems => jsonListToCards elems
  | _ => none

/-- Deserialization of the entries of the `topics_map` object. -/
def entriesToTopics : List (String × Json) → Option TopicsMap
  | [] => some []
  | (name, j) :: rest =>
      match jsonToCards j, entriesToTopics rest with
      | some cs, some t => some ((name, cs) :: t)
      | _, _ => none

/-- Modelled from the spec: deserialization of the persisted document; it
must be an object with a `topics_map` object field, else it is malformed. -/
def jsonToTopicsMap : Json → Option TopicsMap
  | .obj fields =>
      match jlookup fields "topics_map" with
      | some (.obj entries) => entriesToTopics entries
      | _ => none
  | _ => none

/-- The load logic of `main`: an absent source (`none`) or a source whose
content fails to deserialize yields the empty store; a well-formed source
yields the deserialized store.  Mirrors
`serde_json::from_reader(..).unwrap_or_else(|_| Topics { topics_map: HashMap::new() })`
under `match std::fs::File::open`. -/
def loadTopics : Option Json → TopicsMap
  | none => []
  | some j => (jsonToTopicsMap j).getD []

/-! ### Basic lemmas about the store operations -/

theorem mapGet_mapInsert_self (m : TopicsMap) (k : String) (v : List Flashcard) :
    mapGet (mapInsert m k v) k = some v := by
  induction m with
  | nil => simp [mapInsert, mapGet]
  | cons p rest ih =>
      obtain ⟨k', v'⟩ := p
      by_cases h : k' = k <;> simp [mapInsert, mapGet, h, ih]

theorem mapGet_mapPush_self (m : TopicsMap) (k : String) (c : Flashcard)
    (v : List Flashcard) (h : mapGet m k = some v) :
    mapGet (mapPush m k c) k = some (v ++ [c]) := by
  induction m with
  | nil => simp [mapGet] at h
  | cons p rest ih =>
      obtain ⟨k', v'⟩ := p
      by_cases hk : k' = k
      · subst hk
        simp [mapGet] at h
        simp [mapPush, mapGet, h]
      · simp [mapGet, hk] at h
        simp [mapPush, mapGet, hk, ih h]

/-! ### Claim C1: the review-mode invariant -/

theorem select_next_topic_state (a : App) :
    (select_next_topic a).state = a.state := by
  unfold select_next_topic
  dsimp only
  split
  · rfl
  · split <;> rfl

theorem select_next_topic_topics (a : App) :
    (select_next_topic a).topics = a.topics := by
  unfold select_next_topic
  dsimp only
  split
  · rfl
  · split <;> rfl

theorem select_previous_topic_state (a : App) :
    (select_previous_topic a).state = a.state := by
  unfold select_previous_topic
  dsimp only
  split
  · rfl
  · split <;> rfl

theorem select_previous_topic_topics (a : App) :
    (select_previous_topic a).topics = a.topics := by
  unfold select_previous_topic
  dsimp only
  split
  · rfl
  · split <;> rfl

theorem reviewInv_topic_selection {a a' : App} {e : KeyEvent}
    (hs : a.state = AppState.topicSelection)
    (hstep : handle_topic_selection_keys a e = some a') : reviewInv a' := by
  intro topic i sa hst
  unfold handle_topic_selection_keys at hstep
  split at hstep
  case h_1 => rw [Option.some_inj] at hstep; subst hstep; simp_all
  case h_2 => rw [Option.some_inj] at hstep; subst hstep; simp_all
  case h_3 =>
    -- the 'a' key: AddCard entry or panic or no selection
    split at hstep
    · split at hstep
      · rw [Option.some_inj] at hstep; subst hstep; simp_all
      · simp at hstep
    · rw [Option.some_inj] at hstep; subst hstep; simp_all
  case h_4 =>
    -- Enter: review entry guarded by a non-empty card list
    split at hstep
    · split at hstep
      · split at hstep
        · split at hstep
          · rw [Option.some_inj] at hstep; subst hstep; simp_all
          · rename_i cards hget hne
            rw [Option.some_inj] at hstep; subst hstep
            simp only [List.isEmpty_iff] at hne
            simp only [AppState.flashcardReview.injEq] at hst
            obtain ⟨rfl, rfl, rfl⟩ := hst
            exact ⟨cards, hget, hne, List.length_pos.mpr hne⟩
        · rw [Option.some_inj] at hstep; subst hstep; simp_all
      · simp at hstep
    · rw [Option.some_inj] at hstep; subst hstep; simp_all
  case h_5 =>
    rw [Option.some_inj] at hstep; subst hstep
    rw [select_next_topic_state, hs] at hst; simp at hst
  case h_6 =>
    rw [Option.some_inj] at hstep; subst hstep
    rw [select_next_topic_state, hs] at hst; simp at hst
  case h_7 =>
    rw [Option.some_inj] at hstep; subst hstep
    rw [select_previous_topic_state, hs] at hst; simp at hst
  case h_8 =>
    rw [Option.some_inj] at hstep; subst hstep
    rw [select_previous_topic_state, hs] at hst; simp at hst
  case h_9 => rw [Option.some_inj] at hstep; subst hstep; simp_all

theorem reviewInv_flashcard {a a' : App} {e : KeyEvent} {t : String} {ci : Nat}
    {sa : Bool} (hs : a.state = AppState.flashcardReview t ci sa)
    (hinv : reviewInv a)
    (hstep : handle_flashcard_keys a e t ci sa = some a') : reviewInv a' := by
  obtain ⟨cards, hget, hne, hlt⟩ := hinv t ci sa hs
  intro topic i sa' hst
  unfold handle_flashcard_keys at hstep
  split at hstep
  case h_1 => rw [Option.some_inj] at hstep; subst hstep; simp_all
  case h_2 => rw [Option.some_inj] at hstep; subst hstep; simp_all
  case h_3 =>
    rw [Option.some_inj] at hstep; subst hstep
    simp only [AppState.flashcardReview.injEq] at hst
    obtain ⟨rfl, rfl, rfl⟩ := hst
    exact ⟨cards, hget, hne, hlt⟩
  case h_4 =>
    rw [Option.some_inj] at hstep; subst hstep
    simp only [AppState.flashcardReview.injEq] at hst
    obtain ⟨rfl, rfl, rfl⟩ := hst
    exact ⟨cards, hget, hne, hlt⟩
  case h_5 =>
    unfold nextCard at hstep
    split at hstep
    · rename_i cards' hget'
      rw [hget] at hget'
      injection hget' with hc
      subst hc
      split at hstep
      · simp at hstep
      · rename_i hlen
        simp only [Option.some_inj] at hstep; subst hstep
        simp only [AppState.flashcardReview.injEq] at hst
        obtain ⟨rfl, rfl, rfl⟩ := hst
        exact ⟨cards, hget, hne, Nat.mod_lt _ (Nat.pos_of_ne_zero hlen)⟩
    · rename_i hnone
      rw [hget] at hnone; simp at hnone
  case h_6 =>
    unfold nextCard at hstep
    split at hstep
    · rename_i cards' hget'
      rw [hget] at hget'
      injection hget' with hc
      subst hc
      split at hstep
      · simp at hstep
      · rename_i hlen
        simp only [Option.some_inj] at hstep; subst hstep
        simp only [AppState.flashcardReview.injEq] at hst
        obtain ⟨rfl, rfl, rfl⟩ := hst
        exact ⟨cards, hget, hne, Nat.mod_lt _ (Nat.pos_of_ne_zero hlen)⟩
    · rename_i hnone
      rw [hget] at hnone; simp at hnone
  case h_7 =>
    unfold prevCard at hstep
    split at hstep
    · rename_i cards' hget'
      rw [hget] at hget'
      injection hget' with hc
      subst hc
      split at hstep
      · split at hstep
        · simp at hstep
        · rename_i hlen
          simp only [Option.some_inj] at hstep; subst hstep
          simp only [AppState.flashcardReview.injEq] at hst
          obtain ⟨rfl, rfl, rfl⟩ := hst
          exact ⟨cards, hget, hne, Nat.sub_lt (Nat.pos_of_ne_zero hlen) Nat.one_pos⟩
      · simp only [Option.some_inj] at hstep; subst hstep
        simp only [AppState.flashcardReview.injEq] at hst
        obtain ⟨rfl, rfl, rfl⟩ := hst
        exact ⟨cards, hget, hne, Nat.lt_of_le_of_lt (Nat.sub_le ci 1) hlt⟩
    · rename_i hnone
      rw [hget] at hnone; simp at hnone
  case h_8 =>
    unfold prevCard at hstep
    split at hstep
    · rename_i cards' hget'
      rw [hget] at hget'
      injection hget' with hc
      subst hc
      split at hstep
      · split at hstep
        · simp at hstep
        · rename_i hlen
          simp only [Option.some_inj] at hstep; subst hstep
          simp only [AppState.flashcardReview.injEq] at hst
          obtain ⟨rfl, rfl, rfl⟩ := hst
          exact ⟨cards, hget, hne, Nat.sub_lt (Nat.pos_of_ne_zero hlen) Nat.one_pos⟩
      · simp only [Option.some_inj] at hstep; subst hstep
        simp only [AppState.flashcardReview.injEq] at hst
        obtain ⟨rfl, rfl, rfl⟩ := hst
        exact ⟨cards, hget, hne, Nat.lt_of_le_of_lt (Nat.sub_le ci 1) hlt⟩
    · rename_i hnone
      rw [hget] at hnone; simp at hnone
  case h_9 =>
    rw [Option.some_inj] at hstep; subst hstep
    rw [hs] at hst
    simp only [AppState.flashcardReview.injEq] at hst
    obtain ⟨rfl, rfl, rfl⟩ := hst
    exact ⟨cards, hget, hne, hlt⟩

theorem reviewInv_create_topic {a a' : App} {e : KeyEvent} {s : String}
    (hs : a.state = AppState.createTopic s)
    (hstep : handle_create_topic_keys a e s = some a') : reviewInv a' := by
  intro topic i sa hst
  unfold handle_create_topic_keys at hstep
  split at hstep
  all_goals try (split at hstep)
  all_goals (simp only [Option.some_inj] at hstep; subst hstep; simp_all)

theorem reviewInv_add_card {a a' : App} {e : KeyEvent} {t q ans : String}
    {eq : Bool} (hs : a.state = AppState.addCard t q ans eq)
    (hstep : handle_add_card_keys a e t q ans eq = some a') : reviewInv a' := by
  intro topic i sa hst
  unfold handle_add_card_keys at hstep
  split at hstep
  all_goals try (split at hstep)
  all_goals try (split at hstep)
  all_goals (simp only [Option.some_inj] at hstep; subst hstep; simp_all)

/-- Claim C1: in every state reachable from the initial state by routed key
events, a `FlashcardReview { topic, card_index, .. }` state has `topic` bound
in the topic store to a non-empty card sequence with
`card_index < len(cards_of(topic))`; review mode is never entered or retained
with an empty card list. -/
theorem review_state_invariant {t0 : TopicsMap} {a : App}
    (h : Reachable t0 a) : reviewInv a := by
  induction h with
  | init =>
      intro topic i sa hst
      simp [App.new] at hst
  | step hr hstep ih =>
      unfold stepApp at hstep
      split at hstep
      · exact reviewInv_topic_selection (by assumption) hstep
      · exact reviewInv_flashcard (by assumption) ih hstep
      · exact reviewInv_create_topic (by assumption) hstep
      · exact reviewInv_add_card (by assumption) hstep

/-- Witness for C1: a concrete run (press Enter on a one-card topic) reaches a
review state, and the invariant instantiated there is discharged. -/
theorem review_state_invariant_witness :
    ∃ cards, mapGet [("t", [⟨"q1", "a1"⟩])] "t" = some cards ∧
      cards ≠ [] ∧ 0 < cards.length := by
  have hstep : stepApp (App.new [("t", [⟨"q1", "a1"⟩])])
      ⟨KeyCode.enter, ⟨false, false⟩⟩ =
      some { topics := [("t", [⟨"q1", "a1"⟩])]
             state := AppState.flashcardReview "t" 0 false
             listSelected := some 0
             exit := false } := by decide
  exact review_state_invariant (Reachable.step Reachable.init hstep) "t" 0 false rfl

/-- Claim C2 as stated is false at a concrete input: with topic `"t"` present
in the store but mapped to the empty card sequence, the next-card key does not
leave the review state unchanged — `(card_index + 1) % cards.len()` is a
remainder by zero and `cards.len() - 1` underflows, i.e. the handler panics
(modelled `none`) instead of skipping. -/
theorem review_empty_cards_counterexample :
    stepApp { topics := [("t", [])]
              state := AppState.flashcardReview "t" 0 false
              listSelected := some 0
              exit := false } ⟨KeyCode.char 'n', ⟨false, false⟩⟩ = none ∧
    stepApp { topics := [("t", [])]
              state := AppState.flashcardReview "t" 0 false
              listSelected := some 0
              exit := false } ⟨KeyCode.char 'p', ⟨false, false⟩⟩ = none := by
  decide

/-- Claim C2 amended: the defensive skip of `handle_flashcard_keys` covers a
topic that is absent from the store (`if let Some(cards) = ..get(topic)`) —
there next/previous leave the state unchanged; a present topic with an empty
card sequence instead panics. -/
theorem review_missing_topic_skips {a : App} {topic : String} {i : Nat}
    {sa : Bool} (hs : a.state = AppState.flashcardReview topic i sa)
    (habs : mapGet a.topics topic = none) {e : KeyEvent}
    (he : e.code = KeyCode.char 'n' ∨ e.code = KeyCode.right ∨
      e.code = KeyCode.char 'p' ∨ e.code = KeyCode.left) :
    stepApp a e = some a := by
  unfold stepApp
  split <;> rename_i heq <;> rw [hs] at heq
  case h_1 => simp at heq
  case h_2 =>
    injection heq with h1 h2 h3
    subst h1; subst h2; subst h3
    rcases he with h | h | h | h <;>
      simp [handle_flashcard_keys, h, nextCard, prevCard, habs]
  case h_3 => simp at heq
  case h_4 => simp at heq

/-- Witness for the amended C2: a review state over a topic name that is not a
key of the store; the next-card key is a no-op. -/
theorem review_missing_topic_skips_witness :
    stepApp { topics := [("t", [])]
              state := AppState.flashcardReview "u" 0 false
              listSelected := some 0
              exit := false } ⟨KeyCode.char 'n', ⟨false, false⟩⟩ =
      some { topics := [("t", [])]
             state := AppState.flashcardReview "u" 0 false
             listSelected := some 0
             exit := false } :=
  review_missing_topic_skips rfl (by decide) (Or.inl rfl)

/-! ### Claim C3: next/previous card arithmetic -/

theorem stepApp_next {a : App} {topic : String} {cards : List Flashcard}
    {i : Nat} {sa : Bool} (hs : a.state = AppState.flashcardReview topic i sa)
    (hget : mapGet a.topics topic = some cards) (hlen : cards.length ≠ 0)
    {e : KeyEvent} (he : e.code = KeyCode.char 'n' ∨ e.code = KeyCode.right) :
    stepApp a e = some { a with
      state := AppState.flashcardReview topic ((i + 1) % cards.length) false } := by
  unfold stepApp
  split <;> rename_i heq <;> rw [hs] at heq
  case h_1 => simp at heq
  case h_2 =>
    injection heq with h1 h2 h3
    subst h1; subst h2; subst h3
    rcases he with h | h <;> simp [handle_flashcard_keys, h, nextCard, hget, hlen]
  case h_3 => simp at heq
  case h_4 => simp at heq

theorem stepApp_prev {a : App} {topic : String} {cards : List Flashcard}
    {i : Nat} {sa : Bool} (hs : a.state = AppState.flashcardReview topic i sa)
    (hget : mapGet a.topics topic = some cards) (hlen : cards.length ≠ 0)
    {e : KeyEvent} (he : e.code = KeyCode.char 'p' ∨ e.code = KeyCode.left) :
    stepApp a e = some { a with
      state := AppState.flashcardReview topic (if i = 0 then cards.length - 1 else i - 1) false } := by
  unfold stepApp
  split <;> rename_i heq <;> rw [hs] at heq
  case h_1 => simp at heq
  case h_2 =>
    injection heq with h1 h2 h3
    subst h1; subst h2; subst h3
    rcases he with h | h <;>
      simp only [handle_flashcard_keys, h, prevCard, hget] <;>
      by_cases hi : i = 0 <;>
      simp [hi, hlen]
  case h_3 => simp at heq
  case h_4 => simp at heq

theorem stepN_next_card {a : App} {topic : String} {cards : List Flashcard}
    (hget : mapGet a.topics topic = some cards) (hpos : 0 < cards.length)
    {e : KeyEvent} (he : e.code = KeyCode.char 'n' ∨ e.code = KeyCode.right) :
    ∀ j i, i < cards.length →
      stepN e j { a with state := AppState.flashcardReview topic i false } =
        some { a with state := AppState.flashcardReview topic ((i + j) % cards.length) false } := by
  intro j
  induction j with
  | zero => intro i hi; simp [stepN, Nat.mod_eq_of_lt hi]
  | succ j ih =>
      intro i hi
      have h1 := stepApp_next (a := { a with
          state := AppState.flashcardReview topic i false }) rfl hget
        (Nat.pos_iff_ne_zero.mp hpos) he
      simp only [stepN, h1]
      have h2 := ih ((i + 1) % cards.length) (Nat.mod_lt _ hpos)
      rw [h2]
      rw [Nat.mod_add_mod]
      have harith : i + 1 + j = i + (j + 1) := by omega
      rw [harith]

/-- Claim C3: in review over a topic with `k ≥ 1` cards, the next-card keys
map `card_index` to `(card_index + 1) mod k` and the previous-card keys map
`0` to `k - 1` and `i` to `i - 1` otherwise, all resetting `show_answer`;
hence `k` next-card presses from index 0 return to index 0 and one
previous-card press from index 0 yields `k - 1`. -/
theorem flashcard_navigation {a : App} {topic : String} {cards : List Flashcard}
    {k i : Nat} {sa : Bool}
    (hs : a.state = AppState.flashcardReview topic i sa)
    (hget : mapGet a.topics topic = some cards) (hk : cards.length = k)
    (hk1 : 1 ≤ k) :
    (∀ e : KeyEvent, e.code = KeyCode.char 'n' ∨ e.code = KeyCode.right →
      stepApp a e = some { a with
        state := AppState.flashcardReview topic ((i + 1) % k) false }) ∧
    (∀ e : KeyEvent, e.code = KeyCode.char 'p' ∨ e.code = KeyCode.left →
      stepApp a e = some { a with
        state := AppState.flashcardReview topic (if i = 0 then k - 1 else i - 1) false }) ∧
    (∀ e : KeyEvent, e.code = KeyCode.char 'n' ∨ e.code = KeyCode.right →
      stepN e k { a with state := AppState.flashcardReview topic 0 false } =
        some { a with state := AppState.flashcardReview topic 0 false }) ∧
    (∀ e : KeyEvent, e.code = KeyCode.char 'p' ∨ e.code = KeyCode.left →
      stepApp { a with state := AppState.flashcardReview topic 0 false } e =
        some { a with
          state := AppState.flashcardReview topic (k - 1) false }) := by
  subst hk
  have hlen : cards.length ≠ 0 := by omega
  have hpos : 0 < cards.length := by omega
  refine ⟨?_, ?_, ?_, ?_⟩
  · intro e he; exact stepApp_next hs hget hlen he
  · intro e he; exact stepApp_prev hs hget hlen he
  · intro e he
    have h := stepN_next_card hget hpos he cards.length 0 hpos
    rw [h]
    simp
  · intro e he
    have h := stepApp_prev (a := { a with
        state := AppState.flashcardReview topic 0 false }) rfl hget hlen he
    rw [h]
    simp

/-- Witness for C3: a three-card topic; three next-card presses from index 0
return to index 0. -/
theorem flashcard_navigation_witness :
    stepN ⟨KeyCode.char 'n', ⟨false, false⟩⟩ 3
      { topics := [("t", [⟨"q1", "a1"⟩, ⟨"q2", "a2"⟩, ⟨"q3", "a3"⟩])]
        state := AppState.flashcardReview "t" 0 false
        listSelected := some 0
        exit := false } =
      some { topics := [("t", [⟨"q1", "a1"⟩, ⟨"q2", "a2"⟩, ⟨"q3", "a3"⟩])]
             state := AppState.flashcardReview "t" 0 false
             listSelected := some 0
             exit := false } :=
  (@flashcard_navigation
    { topics := [("t", [⟨"q1", "a1"⟩, ⟨"q2", "a2"⟩, ⟨"q3", "a3"⟩])]
      state := AppState.flashcardReview "t" 0 false
      listSelected := some 0
      exit := false }
    "t" [⟨"q1", "a1"⟩, ⟨"q2", "a2"⟩, ⟨"q3", "a3"⟩] 3 0 false
    rfl (by decide) rfl (by decide)).2.2.1 _ (Or.inl rfl)

/-! ### Claims C4 and C5: persistence round-trip and load fallback -/

theorem jsonToFlashcard_flashcardToJson (c : Flashcard) :
    jsonToFlashcard (flashcardToJson c) = some c := by
  cases c
  simp [flashcardToJson, jsonToFlashcard, jlookup]

theorem jsonListToCards_roundtrip (cs : List Flashcard) :
    jsonListToCards (cs.map flashcardToJson) = some cs := by
  induction cs with
  | nil => rfl
  | cons c rest ih =>
      simp [jsonListToCards, jsonToFlashcard_flashcardToJson, ih]

theorem entriesToTopics_roundtrip (t : TopicsMap) :
    entriesToTopics (t.map fun p => (p.1, Json.arr (p.2.map flashcardToJson))) =
      some t := by
  induction t with
  | nil => rfl
  | cons p rest ih =>
      obtain ⟨name, cs⟩ := p
      simp [entriesToTopics, jsonToCards, jsonListToCards_roundtrip, ih]

/-- Claim C4: serializing a topic store and deserializing the result yields an
equal store — the same topic names, each mapped to the same card sequence in
the same order — for any store with a non-empty set of (duplicate-free)
topics. -/
theorem store_roundtrip (t : TopicsMap) (hnd : (t.map Prod.fst).Nodup)
    (hne : t ≠ []) : jsonToTopicsMap (topicsToJson t) = some t := by
  unfold topicsToJson jsonToTopicsMap
  simp [jlookup, entriesToTopics_roundtrip]

/-- Witness for C4: a concrete two-topic store survives the round trip. -/
theorem store_roundtrip_witness :
    jsonToTopicsMap (topicsToJson [("a", [⟨"q", "ans"⟩]), ("b", [])]) =
      some [("a", [⟨"q", "ans"⟩]), ("b", [])] :=
  store_roundtrip _ (by decide) (by decide)

/-- Claim C5: `loadTopics` is a total function (no failure can surface); an
absent source yields the empty store, a source whose content fails to
deserialize yields the empty store, and a well-formed source yields the
deserialized store. -/
theorem load_fallback :
    loadTopics none = [] ∧
    (∀ j, jsonToTopicsMap j = none → loadTopics (some j) = []) ∧
    (∀ j t, jsonToTopicsMap j = some t → loadTopics (some j) = t) := by
  refine ⟨rfl, ?_, ?_⟩
  · intro j h
    simp [loadTopics, h]
  · intro j t h
    simp [loadTopics, h]

/-- Witness for C5: malformed content (a bare string where an object is
required) loads as the empty store. -/
theorem load_fallback_witness :
    loadTopics (some (Json.str "garbage")) = [] :=
  load_fallback.2.1 _ rfl

/-! ### Claims C6, C7, C10: commit behavior of CreateTopic and AddCard -/

/-- Claim C6: committing a topic name in `CreateTopic` when a topic of that
name already exists with `N` cards replaces the entry with an empty card
sequence, discarding the `N` stored cards (last-write-wins). -/
theorem create_topic_overwrites {a : App} {buffer : String}
    {cards : List Flashcard} {N : Nat}
    (hs : a.state = AppState.createTopic buffer)
    (hne : rustTrim buffer ≠ "")
    (hget : mapGet a.topics (rustTrim buffer) = some cards)
    (hN : cards.length = N) {e : KeyEvent} (he : e.code = KeyCode.enter) :
    ∃ a', stepApp a e = some a' ∧ a'.state = AppState.topicSelection ∧
      mapGet a'.topics (rustTrim buffer) = some [] := by
  unfold stepApp
  split <;> rename_i heq <;> rw [hs] at heq
  case h_1 => simp at heq
  case h_2 => simp at heq
  case h_3 =>
    injection heq with h1
    subst h1
    refine ⟨{ a with
        topics := mapInsert a.topics (rustTrim buffer) []
        state := AppState.topicSelection
        listSelected :=
          update_list_selection (mapInsert a.topics (rustTrim buffer) [])
            a.listSelected },
      ?_, rfl, mapGet_mapInsert_self _ _ _⟩
    simp [handle_create_topic_keys, he, String.isEmpty_iff, hne]
  case h_4 => simp at heq

/-- Witness for C6: recreating topic `"math"` (committed from the buffer
`" math "`) discards its one stored card. -/
theorem create_topic_overwrites_witness :
    ∃ a', stepApp { topics := [("math", [⟨"q", "ans"⟩])]
                    state := AppState.createTopic " math "
                    listSelected := some 0
                    exit := false } ⟨KeyCode.enter, ⟨false, false⟩⟩ = some a' ∧
      a'.state = AppState.topicSelection ∧
      mapGet a'.topics (rustTrim " math ") = some [] :=
  @create_topic_overwrites
    { topics := [("math", [⟨"q", "ans"⟩])]
      state := AppState.createTopic " math "
      listSelected := some 0
      exit := false }
    " math " [⟨"q", "ans"⟩] 1 rfl (by decide) (by decide) rfl
    ⟨KeyCode.enter, ⟨false, false⟩⟩ rfl

/-- Claim C7: pressing Enter in `CreateTopic` with an empty or
whitespace-only buffer, or the save combination in `AddCard` with either
trimmed buffer empty, leaves the whole application state — in particular the
topic set, every card count and the mode — unchanged, surfacing no error. -/
theorem invalid_commit_noop :
    (∀ (a : App) (buffer : String) (e : KeyEvent),
      a.state = AppState.createTopic buffer → e.code = KeyCode.enter →
      rustTrim buffer = "" → stepApp a e = some a) ∧
    (∀ (a : App) (t q ans : String) (b : Bool) (e : KeyEvent),
      a.state = AppState.addCard t q ans b → e.code = KeyCode.char 's' →
      (e.modifiers.control = true ∨ e.modifiers.superMod = true) →
      (rustTrim q = "" ∨ rustTrim ans = "") → stepApp a e = some a) := by
  constructor
  · intro a buffer e hs he htrim
    unfold stepApp
    split <;> rename_i heq <;> rw [hs] at heq
    case h_1 => simp at heq
    case h_2 => simp at heq
    case h_3 =>
      injection heq with h1
      subst h1
      simp [handle_create_topic_keys, he, String.isEmpty_iff, htrim]
    case h_4 => simp at heq
  · intro a t q ans b e hs he hmods htrim
    unfold stepApp
    split <;> rename_i heq <;> rw [hs] at heq
    case h_1 => simp at heq
    case h_2 => simp at heq
    case h_3 => simp at heq
    case h_4 =>
      injection heq with h1 h2 h3 h4
      subst h1; subst h2; subst h3; subst h4
      rcases htrim with h | h <;> rcases hmods with hm | hm <;>
        simp [handle_add_card_keys, he, hm, String.isEmpty_iff, h]

/-- Witness for C7: a whitespace-only topic name is rejected with the app
unchanged, and a card whose answer trims to empty is rejected with the app
unchanged. -/
theorem invalid_commit_noop_witness :
    stepApp { topics := [("math", [])]
              state := AppState.createTopic "  "
              listSelected := some 0
              exit := false } ⟨KeyCode.enter, ⟨false, false⟩⟩ =
      some { topics := [("math", [])]
             state := AppState.createTopic "  "
             listSelected := some 0
             exit := false } ∧
    stepApp { topics := [("math", [])]
              state := AppState.addCard "math" "q" " \n " true
              listSelected := some 0
              exit := false } ⟨KeyCode.char 's', ⟨true, false⟩⟩ =
      some { topics := [("math", [])]
             state := AppState.addCard "math" "q" " \n " true
             listSelected := some 0
             exit := false } :=
  ⟨invalid_commit_noop.1 _ "  " _ rfl rfl (by decide),
   invalid_commit_noop.2 _ "math" "q" " \n " true _ rfl rfl (Or.inl rfl)
     (Or.inr (by decide))⟩

/-! ### Claim C8: entering review from TopicSelection -/

theorem stepApp_topic_selection {a : App}
    (hs : a.state = AppState.topicSelection) (e : KeyEvent) :
    stepApp a e = handle_topic_selection_keys a e := by
  unfold stepApp
  split <;> rename_i heq <;> rw [hs] at heq
  · simp at heq
  · simp at heq
  · simp at heq

/-- Claim C8: in `TopicSelection`, Enter with a selected topic whose card
sequence is non-empty transitions to `FlashcardReview` of that topic at card
index 0 with the answer hidden; with no selection, or with the selected
topic's card sequence empty, the application (state and store) is unchanged. -/
theorem topic_enter_review {a : App} {e : KeyEvent}
    (hs : a.state = AppState.topicSelection) (he : e.code = KeyCode.enter) :
    (a.listSelected = none → stepApp a e = some a) ∧
    (∀ i name cards, a.listSelected = some i →
      (get_sorted_topics a.topics)[i]? = some name →
      mapGet a.topics name = some cards →
      (cards = [] → stepApp a e = some a) ∧
      (cards ≠ [] → stepApp a e =
        some { a with state := AppState.flashcardReview name 0 false })) := by
  rw [stepApp_topic_selection hs e]
  constructor
  · intro hsel
    simp [handle_topic_selection_keys, he, hsel]
  · intro i name cards hsel hname hget
    constructor
    · intro hcards
      simp [handle_topic_selection_keys, he, hsel, hname, hget, hcards]
    · intro hcards
      simp [handle_topic_selection_keys, he, hsel, hname, hget,
        List.isEmpty_iff, hcards]

/-- Witness for C8: Enter on the selected one-card topic `"t"` enters review
at index 0 with the answer hidden. -/
theorem topic_enter_review_witness :
    stepApp { topics := [("t", [⟨"q", "ans"⟩])]
              state := AppState.topicSelection
              listSelected := some 0
              exit := false } ⟨KeyCode.enter, ⟨false, false⟩⟩ =
      some { topics := [("t", [⟨"q", "ans"⟩])]
             state := AppState.flashcardReview "t" 0 false
             listSelected := some 0
             exit := false } :=
  ((topic_enter_review rfl rfl).2 0 "t" [⟨"q", "ans"⟩] rfl (by decide)
    (by decide)).2 (by decide)

/-! ### Claim C9: topic-selection wraparound -/

theorem handle_keys_down {a : App} {e : KeyEvent}
    (he : e.code = KeyCode.down ∨ e.code = KeyCode.char 'j') :
    handle_topic_selection_keys a e = some (select_next_topic a) := by
  rcases he with h | h <;> simp [handle_topic_selection_keys, h]

theorem handle_keys_up {a : App} {e : KeyEvent}
    (he : e.code = KeyCode.up ∨ e.code = KeyCode.char 'k') :
    handle_topic_selection_keys a e = some (select_previous_topic a) := by
  rcases he with h | h <;> simp [handle_topic_selection_keys, h]

theorem select_next_topic_eq {a : App} {i : Nat}
    (hsel : a.listSelected = some i) (hN : a.topics.length ≠ 0) :
    select_next_topic a =
      { a with listSelected := some ((i + 1) % a.topics.length) } := by
  unfold select_next_topic
  simp [hN, hsel]

theorem select_previous_topic_eq {a : App} {i : Nat}
    (hsel : a.listSelected = some i) (hN : a.topics.length ≠ 0) :
    select_previous_topic a =
      { a with listSelected := some (if i = 0 then a.topics.length - 1 else i - 1) } := by
  unfold select_previous_topic
  simp [hN, hsel]

theorem select_next_topic_zero {a : App} (hN : a.topics.length = 0) :
    select_next_topic a = a := by
  unfold select_next_topic
  simp [hN]

theorem select_previous_topic_zero {a : App} (hN : a.topics.length = 0) :
    select_previous_topic a = a := by
  unfold select_previous_topic
  simp [hN]

theorem prev_index_formula {m N : Nat} (hm : m < N) (hN : 1 ≤ N) :
    (if m = 0 then N - 1 else m - 1) = (m + (N - 1)) % N := by
  by_cases h : m = 0
  · subst h
    simp [Nat.mod_eq_of_lt (show N - 1 < N by omega)]
  · rw [if_neg h]
    have hsplit : m + (N - 1) = (m - 1) + N := by omega
    rw [hsplit, Nat.add_mod_right]
    exact (Nat.mod_eq_of_lt (by omega)).symm

theorem stepN_down {a : App} (hs : a.state = AppState.topicSelection)
    {e : KeyEvent} (he : e.code = KeyCode.down ∨ e.code = KeyCode.char 'j')
    (hN : 0 < a.topics.length) :
    ∀ j i, i < a.topics.length →
      stepN e j { a with listSelected := some i } =
        some { a with listSelected := some ((i + j) % a.topics.length) } := by
  intro j
  induction j with
  | zero => intro i hi; simp [stepN, Nat.mod_eq_of_lt hi]
  | succ j ih =>
      intro i hi
      have h1 : stepApp { a with listSelected := some i } e =
          some { a with listSelected := some ((i + 1) % a.topics.length) } := by
        rw [stepApp_topic_selection (a := { a with listSelected := some i }) hs e,
          handle_keys_down he,
          select_next_topic_eq (a := { a with listSelected := some i }) rfl
            (Nat.pos_iff_ne_zero.mp hN)]
      simp only [stepN, h1]
      have h2 := ih ((i + 1) % a.topics.length) (Nat.mod_lt _ hN)
      rw [h2, Nat.mod_add_mod]
      have harith : i + 1 + j = i + (j + 1) := by omega
      rw [harith]

theorem stepN_up {a : App} (hs : a.state = AppState.topicSelection)
    {e : KeyEvent} (he : e.code = KeyCode.up ∨ e.code = KeyCode.char 'k')
    (hN : 0 < a.topics.length) :
    ∀ j i, i < a.topics.length →
      stepN e j { a with listSelected := some i } =
        some { a with listSelected := some ((i + j * (a.topics.length - 1)) % a.topics.length) } := by
  intro j
  induction j with
  | zero => intro i hi; simp [stepN, Nat.mod_eq_of_lt hi]
  | succ j ih =>
      intro i hi
      have h1 : stepApp { a with listSelected := some i } e =
          some { a with listSelected := some (if i = 0 then a.topics.length - 1 else i - 1) } := by
        rw [stepApp_topic_selection (a := { a with listSelected := some i }) hs e,
          handle_keys_up he,
          select_previous_topic_eq (a := { a with listSelected := some i }) rfl
            (Nat.pos_iff_ne_zero.mp hN)]
      simp only [stepN, h1]
      have hidx : (if i = 0 then a.topics.length - 1 else i - 1) <
          a.topics.length := by
        by_cases h : i = 0 <;> simp [h] <;> omega
      have h2 := ih _ hidx
      rw [h2, prev_index_formula hi (by omega), Nat.mod_add_mod]
      have harith : i + (a.topics.length - 1) + j * (a.topics.length - 1) =
          i + (j + 1) * (a.topics.length - 1) := by
        rw [Nat.succ_mul]; omega
      rw [harith]

/-- Claim C9: in `TopicSelection` over a store with `N ≥ 1` topics, the down
key advances and the up key retreats the selection index modulo `N`, so `N`
presses of either return the selection to its starting value; with zero
topics both keys leave the application unchanged. -/
theorem selection_wraparound :
    (∀ (a : App) (N i : Nat) (e : KeyEvent),
      a.state = AppState.topicSelection → a.topics.length = N → 1 ≤ N →
      a.listSelected = some i → i < N →
      (e.code = KeyCode.down ∨ e.code = KeyCode.char 'j' →
        stepApp a e = some { a with listSelected := some ((i + 1) % N) }) ∧
      (e.code = KeyCode.up ∨ e.code = KeyCode.char 'k' →
        stepApp a e =
          some { a with listSelected := some (if i = 0 then N - 1 else i - 1) }) ∧
      (e.code = KeyCode.down ∨ e.code = KeyCode.char 'j' →
        stepN e N a = some a) ∧
      (e.code = KeyCode.up ∨ e.code = KeyCode.char 'k' →
        stepN e N a = some a)) ∧
    (∀ (a : App) (e : KeyEvent), a.state = AppState.topicSelection →
      a.topics.length = 0 →
      (e.code = KeyCode.down ∨ e.code = KeyCode.char 'j' ∨
       e.code = KeyCode.up ∨ e.code = KeyCode.char 'k') →
      stepApp a e = some a) := by
  constructor
  · intro a N i e hs hN hN1 hsel hi
    subst hN
    have ha : { a with listSelected := some i } = a := by rw [← hsel]
    refine ⟨?_, ?_, ?_, ?_⟩
    · intro he
      rw [stepApp_topic_selection hs e, handle_keys_down he,
        select_next_topic_eq hsel (by omega)]
    · intro he
      rw [stepApp_topic_selection hs e, handle_keys_up he,
        select_previous_topic_eq hsel (by omega)]
    · intro he
      have h := stepN_down hs he (by omega) a.topics.length i hi
      rw [Nat.add_mod_right, Nat.mod_eq_of_lt hi, ha] at h
      exact h
    · intro he
      have h := stepN_up hs he (by omega) a.topics.length i hi
      rw [Nat.mul_comm a.topics.length (a.topics.length - 1),
        Nat.add_mul_mod_self_right, Nat.mod_eq_of_lt hi, ha] at h
      exact h
  · intro a e hs hN he
    rcases he with h | h | h | h
    · rw [stepApp_topic_selection hs e, handle_keys_down (Or.inl h),
        select_next_topic_zero hN]
    · rw [stepApp_topic_selection hs e, handle_keys_down (Or.inr h),
        select_next_topic_zero hN]
    · rw [stepApp_topic_selection hs e, handle_keys_up (Or.inl h),
        select_previous_topic_zero hN]
    · rw [stepApp_topic_selection hs e, handle_keys_up (Or.inr h),
        select_previous_topic_zero hN]

/-- Witness for C9: two topics, two down presses return the selection to
index 0. -/
theorem selection_wraparound_witness :
    stepN ⟨KeyCode.down, ⟨false, false⟩⟩ 2
      { topics := [("a", []), ("b", [])]
        state := AppState.topicSelection
        listSelected := some 0
        exit := false } =
      some { topics := [("a", []), ("b", [])]
             state := AppState.topicSelection
             listSelected := some 0
             exit := false } :=
  (selection_wraparound.1
    { topics := [("a", []), ("b", [])]
      state := AppState.topicSelection
      listSelected := some 0
      exit := false }
    2 0 ⟨KeyCode.down, ⟨false, false⟩⟩ rfl rfl (by decide) rfl
    (by decide)).2.2.1 (Or.inl rfl)

/-- Claim C10: every value committed to the topic store is stored trimmed —
a committed topic name is the trimmed input buffer, and a committed card's
question and answer are the trimmed buffers, whatever surrounding whitespace
or line breaks the buffers contain. -/
theorem committed_values_trimmed :
    (∀ (a : App) (buffer : String) (e : KeyEvent),
      a.state = AppState.createTopic buffer → e.code = KeyCode.enter →
      rustTrim buffer ≠ "" →
      ∃ a', stepApp a e = some a' ∧
        mapGet a'.topics (rustTrim buffer) = some []) ∧
    (∀ (a : App) (t q ans : String) (b : Bool) (e : KeyEvent)
      (cards : List Flashcard),
      a.state = AppState.addCard t q ans b → e.code = KeyCode.char 's' →
      (e.modifiers.control = true ∨ e.modifiers.superMod = true) →
      rustTrim q ≠ "" → rustTrim ans ≠ "" → mapGet a.topics t = some cards →
      ∃ a', stepApp a e = some a' ∧
        mapGet a'.topics t = some (cards ++ [⟨rustTrim q, rustTrim ans⟩])) := by
  constructor
  · intro a buffer e hs he hne
    unfold stepApp
    split <;> rename_i heq <;> rw [hs] at heq
    case h_1 => simp at heq
    case h_2 => simp at heq
    case h_3 =>
      injection heq with h1
      subst h1
      refine ⟨{ a with
          topics := mapInsert a.topics (rustTrim buffer) []
          state := AppState.topicSelection
          listSelected :=
            update_list_selection (mapInsert a.topics (rustTrim buffer) [])
              a.listSelected },
        ?_, mapGet_mapInsert_self _ _ _⟩
      simp [handle_create_topic_keys, he, String.isEmpty_iff, hne]
    case h_4 => simp at heq
  · intro a t q ans b e cards hs he hmods hq hans hget
    unfold stepApp
    split <;> rename_i heq <;> rw [hs] at heq
    case h_1 => simp at heq
    case h_2 => simp at heq
    case h_3 => simp at heq
    case h_4 =>
      injection heq with h1 h2 h3 h4
      subst h1; subst h2; subst h3; subst h4
      refine ⟨{ a with
          topics := mapPush a.topics t ⟨rustTrim q, rustTrim ans⟩
          state := AppState.topicSelection },
        ?_, mapGet_mapPush_self _ _ _ _ hget⟩
      rcases hmods with hm | hm <;>
        simp [handle_add_card_keys, he, hm, String.isEmpty_iff, hq, hans]

/-- Witness for C10: a topic name committed from a buffer with surrounding
whitespace and a card committed from buffers with surrounding whitespace and
line breaks are both stored trimmed. -/
theorem committed_values_trimmed_witness :
    (∃ a', stepApp { topics := []
                     state := AppState.createTopic " my topic\n"
                     listSelected := none
                     exit := false } ⟨KeyCode.enter, ⟨false, false⟩⟩ = some a' ∧
      mapGet a'.topics (rustTrim " my topic\n") = some []) ∧
    (∃ a', stepApp { topics := [("t", [])]
                     state := AppState.addCard "t" "  2+2?\n" " 4 " true
                     listSelected := some 0
                     exit := false } ⟨KeyCode.char 's', ⟨false, true⟩⟩ = some a' ∧
      mapGet a'.topics "t" = some [⟨rustTrim "  2+2?\n", rustTrim " 4 "⟩]) :=
  ⟨committed_values_trimmed.1 _ " my topic\n" _ rfl rfl (by decide),
   committed_values_trimmed.2 _ "t" "  2+2?\n" " 4 " true _ [] rfl rfl
     (Or.inr rfl) (by decide) (by decide) (by decide)⟩
